import Mathlib

/-!
Shallow embedding of the LPWAN protocol simulator's core data structures and
algorithms: the NOVEL compact header codec, the gateway downlink builder, the
device-side downlink command parser, the epoch-based idempotent command rule,
the windowed-bitmap ACK tracker, the priority+deadline command scheduler
(a Python `heapq` binary heap plus a stable sort), and the device energy
integrator.  Bytes are naturals below 256, byte strings are `List Nat`,
virtual times are naturals (milliseconds), and power/energy values are
rationals.  Protocol string tags are embedded as naturals
(novel_lpwan = 0, mqtt_sn = 1, coap = 2).
-/

namespace LPWAN

/-- Compact 5-byte NOVEL header: byte 0 packs msg_type(3) | prio_class(2) |
topic_class(3); bytes 1-2 carry seq_num big-endian; byte 3 flags; byte 4
token_short. -/
structure NovelHeader where
  msg_type : Nat
  prio_class : Nat
  topic_class : Nat
  seq_num : Nat
  flags : Nat
  token_short : Nat
deriving DecidableEq, Repr

/-- Byte 0 of the header: `((msg_type & 0x07) << 5) | ((prio_class & 0x03) << 3) | (topic_class & 0x07)`. -/
def NovelHeader.byte0 (h : NovelHeader) : Nat :=
  ((h.msg_type &&& 0x07) <<< 5) ||| ((h.prio_class &&& 0x03) <<< 3) ||| (h.topic_class &&& 0x07)

/-- `NovelHeader.encode`: `struct.pack('>BHBB', byte0, seq_num, flags, token_short)`.
`struct.pack` raises for out-of-range `H`/`B` fields, modelled by `none`. -/
def NovelHeader.encode (h : NovelHeader) : Option (List Nat) :=
  if h.seq_num < 65536 ∧ h.flags < 256 ∧ h.token_short < 256 then
    some [h.byte0, h.seq_num >>> 8, h.seq_num &&& 0xFF, h.flags, h.token_short]
  else none

/-- `NovelHeader.decode`: raises (= `none`) when fewer than 5 bytes, else
unpacks `'>BHBB'` from the first five bytes and splits byte 0 into the three
bit fields. -/
def NovelHeader.decode (data : List Nat) : Option NovelHeader :=
  if data.length < 5 then none
  else
    let b0 := data.getD 0 0
    some { msg_type := (b0 >>> 5) &&& 0x07
           prio_class := (b0 >>> 3) &&& 0x03
           topic_class := b0 &&& 0x07
           seq_num := data.getD 1 0 * 256 + data.getD 2 0
           flags := data.getD 3 0
           token_short := data.getD 4 0 }

/-- Splitting byte 0 recovers the three packed fields when they are in range. -/
theorem byte0_fields :
    ∀ mt < 8, ∀ pc < 4, ∀ tc < 8,
      (((((mt &&& 0x07) <<< 5) ||| ((pc &&& 0x03) <<< 3) ||| (tc &&& 0x07)) >>> 5) &&& 0x07 = mt ∧
       ((((mt &&& 0x07) <<< 5) ||| ((pc &&& 0x03) <<< 3) ||| (tc &&& 0x07)) >>> 3) &&& 0x03 = pc ∧
       (((mt &&& 0x07) <<< 5) ||| ((pc &&& 0x03) <<< 3) ||| (tc &&& 0x07)) &&& 0x07 = tc) := by
  decide

/-- Reassembling the two big-endian sequence bytes recovers a 16-bit value. -/
theorem seq_bytes_recompose (s : Nat) :
    (s >>> 8) * 256 + (s &&& 0xFF) = s := by
  have h1 : s >>> 8 = s / 256 := by
    have := Nat.shiftRight_eq_div_pow s 8
    norm_num at this
    exact this
  have h2 : s &&& 0xFF = s % 256 := by
    have := Nat.and_pow_two_sub_one_eq_mod s 8
    norm_num at this
    exact this
  omega

/-- Claim C7: for every NOVEL header with in-range fields, encoding yields
exactly 5 bytes and decoding them returns the original header. -/
theorem c7_novel_header_roundtrip (h : NovelHeader) (bs : List Nat)
    (hmt : h.msg_type < 8) (hpc : h.prio_class < 4) (htc : h.topic_class < 8)
    (henc : h.encode = some bs) :
    bs.length = 5 ∧ NovelHeader.decode bs = some h := by
  rw [NovelHeader.encode] at henc
  split at henc
  · rename_i hrange
    obtain ⟨hseq, hflags, htok⟩ := hrange
    obtain rfl : _ = bs := Option.some.inj henc
    refine ⟨rfl, ?_⟩
    obtain ⟨e1, e2, e3⟩ := byte0_fields h.msg_type hmt h.prio_class hpc h.topic_class htc
    have hb : NovelHeader.byte0 h =
        ((h.msg_type &&& 0x07) <<< 5) ||| ((h.prio_class &&& 0x03) <<< 3) ||| (h.topic_class &&& 0x07) := rfl
    simp only [NovelHeader.decode, List.length_cons, List.length_nil, List.getD_cons_zero,
      List.getD_cons_succ, hb]
    norm_num
    rw [e1, e2, e3, seq_bytes_recompose]
  · exact absurd henc (by simp)

/-- Witness for C7 at the concrete header (0,1,0,517,2,7). -/
theorem c7_novel_header_roundtrip_witness :
    (0 : Nat) < 8 ∧ (1 : Nat) < 4 ∧ (0 : Nat) < 8 ∧
    NovelHeader.encode ⟨0, 1, 0, 517, 2, 7⟩ = some [8, 2, 5, 2, 7] ∧
    ([8, 2, 5, 2, 7].length = 5 ∧
     NovelHeader.decode [8, 2, 5, 2, 7] = some ⟨0, 1, 0, 517, 2, 7⟩) :=
  ⟨by decide, by decide, by decide, by decide,
   c7_novel_header_roundtrip ⟨0, 1, 0, 517, 2, 7⟩ [8, 2, 5, 2, 7]
     (by decide) (by decide) (by decide) (by decide)⟩

/-- A downlink command as parsed on the device side: the dict
{cmd_type, epoch_id, payload} produced by `parse_downlink_packet`. -/
structure CmdDict where
  cmd_type : Nat
  epoch_id : Nat
  payload : List Nat
deriving DecidableEq, Repr

/-- Command serialization inside the codec's `create_downlink_packet`: for each
command append cmd_type & 0xFF, epoch_id & 0xFF, len(payload) & 0xFF, then the
payload bytes. -/
def encode_commands : List CmdDict → List Nat
  | [] => []
  | c :: cs =>
      (c.cmd_type &&& 0xFF) :: (c.epoch_id &&& 0xFF) :: (c.payload.length &&& 0xFF) ::
        (c.payload ++ encode_commands cs)

/-- `NovelLPWANProtocol.create_downlink_packet` payload bytes: the encoded
5-byte header (msg_type=CMD_RESP=2, prio=NORMAL=1, topic=CMD=5, seq=ack_base,
flags=0, token_short=0), then the 2-byte big-endian ack_bitmap, then the
serialized commands. -/
def novel_create_downlink_payload (commands : List CmdDict) (ack_base ack_bitmap : Nat) :
    Option (List Nat) :=
  match NovelHeader.encode ⟨2, 1, 5, ack_base, 0, 0⟩ with
  | none => none
  | some hdr =>
      if ack_bitmap < 65536 then
        some (hdr ++ [ack_bitmap >>> 8, ack_bitmap &&& 0xFF] ++ encode_commands commands)
      else none

/-- A pending downlink command at the gateway scheduler (dataclass
`PendingCommand`); `probability_target` is a float in the source, embedded as
a rational.  `protocol` is the protocol tag (novel_lpwan = 0, mqtt_sn = 1,
coap = 2). -/
structure PendingCommand where
  cmd_id : Nat
  device_id : Nat
  protocol : Nat
  cmd_type : Nat
  payload : List Nat
  epoch_id : Nat
  priority : Nat
  deadline_ms : Nat
  created_ms : Nat
  probability_target : ℚ
  retries : Nat
  max_retries : Nat
deriving DecidableEq, Repr

instance : Inhabited PendingCommand :=
  ⟨{ cmd_id := 0, device_id := 0, protocol := 0, cmd_type := 0, payload := [],
     epoch_id := 0, priority := 0, deadline_ms := 0, created_ms := 0,
     probability_target := 0, retries := 0, max_retries := 3 }⟩

/-- Command serialization inside the gateway's `_create_novel_downlink`: for
each command append cmd_type, epoch_id, len(payload) (unmasked `bytearray`
appends), then the payload bytes. -/
def gw_encode_commands : List PendingCommand → List Nat
  | [] => []
  | c :: cs => c.cmd_type :: c.epoch_id :: c.payload.length :: (c.payload ++ gw_encode_commands cs)

/-- `Gateway._create_novel_downlink` payload bytes: 0x02, then 2-byte
big-endian ack_base, then 2-byte big-endian ack_bitmap, then the serialized
commands.  `int.to_bytes(2)` and `bytearray.append` raise when a value is out
of range, modelled by `none`. -/
def gateway_create_novel_downlink_payload (commands : List PendingCommand)
    (ack_base ack_bitmap : Nat) : Option (List Nat) :=
  if ack_base < 65536 ∧ ack_bitmap < 65536 ∧
     ∀ c ∈ commands, c.cmd_type < 256 ∧ c.epoch_id < 256 ∧ c.payload.length < 256 then
    some (0x02 :: (ack_base >>> 8) :: (ack_base &&& 0xFF) ::
          (ack_bitmap >>> 8) :: (ack_bitmap &&& 0xFF) :: gw_encode_commands commands)
  else none

/-- Command-list parsing loop of `parse_downlink_packet`, operating on the
bytes after the 7 skipped header+bitmap bytes; stops when fewer than 3 bytes
remain or the declared length overruns the buffer.  The first argument is
structural fuel bounding the iteration count (one byte is consumed per parsed
command header, so the byte count suffices). -/
def parseCmdsFuel : Nat → List Nat → List CmdDict
  | 0, _ => []
  | fuel + 1, ct :: e :: ln :: rest =>
      if ln ≤ rest.length then
        ⟨ct, e, rest.take ln⟩ :: parseCmdsFuel fuel (rest.drop ln)
      else []
  | _ + 1, [] => []
  | _ + 1, [_] => []
  | _ + 1, [_, _] => []

/-- `NovelLPWANProtocol.parse_downlink_packet`: returns no commands when the
payload is shorter than header size + 2; otherwise skips 7 bytes
(5-byte header + 2-byte ack bitmap) and parses {cmd_type, epoch_id, len, data}
records until the buffer runs out. -/
def novel_parse_downlink (payload : List Nat) : List CmdDict :=
  if payload.length < 5 + 2 then [] else parseCmdsFuel payload.length (payload.drop 7)

/-- The concrete command used to exhibit the C1 wire-format mismatch. -/
def c1cmd : PendingCommand :=
  { cmd_id := 0, device_id := 0, protocol := 0, cmd_type := 5, payload := [170],
    epoch_id := 1, priority := 0, deadline_ms := 1000, created_ms := 0,
    probability_target := 1, retries := 0, max_retries := 3 }

/-- Claim C1 fails on the code: for the single command (cmd_type=5, epoch=1,
payload=[170]) with ack_base=3 and ack_bitmap=1, the gateway's downlink
builder emits 0x02 ‖ ack_base ‖ ack_bitmap ‖ command (9 bytes), which differs
from the codec's create_downlink_packet frame (11 bytes, 5-byte header then
bitmap), and the device-side parse_downlink_packet applied to the
gateway-built frame returns no commands at all, while the codec-built frame
parses back to exactly the command placed in it. -/
theorem c1_downlink_wire_mismatch :
    gateway_create_novel_downlink_payload [c1cmd] 3 1 = some [2, 0, 3, 0, 1, 5, 1, 1, 170] ∧
    novel_create_downlink_payload [⟨5, 1, [170]⟩] 3 1 =
      some [77, 0, 3, 0, 0, 0, 1, 5, 1, 1, 170] ∧
    decide ((some [2, 0, 3, 0, 1, 5, 1, 1, 170] : Option (List Nat)) =
      some [77, 0, 3, 0, 0, 0, 1, 5, 1, 1, 170]) = false ∧
    novel_parse_downlink [2, 0, 3, 0, 1, 5, 1, 1, 170] = [] ∧
    novel_parse_downlink [77, 0, 3, 0, 0, 0, 1, 5, 1, 1, 170] = [⟨5, 1, [170]⟩] := by
  decide

instance : Inhabited CmdDict := ⟨⟨0, 0, []⟩⟩

/-- One step of `EndDevice._process_commands` for a NOVEL command: the device
epoch table is the dict `epoch_ids` read with default 0; the command is
applied exactly when `epoch_id > current_epoch`, in which case
`epoch_ids[cmd_type] := epoch_id`; otherwise it is ignored.  Returns the
applied flag and the updated table. -/
def process_novel_command (epochs : Nat → Nat) (c : CmdDict) : Bool × (Nat → Nat) :=
  if epochs c.cmd_type < c.epoch_id then
    (true, fun t => if t = c.cmd_type then c.epoch_id else epochs t)
  else (false, epochs)

/-- Applied flags along a sequence of processed NOVEL commands. -/
def flags_from (epochs : Nat → Nat) : List CmdDict → List Bool
  | [] => []
  | c :: cs => (process_novel_command epochs c).1 :: flags_from (process_novel_command epochs c).2 cs

/-- The epoch table only moves up at a processing step. -/
theorem process_novel_command_mono (e : Nat → Nat) (c : CmdDict) (t : Nat) :
    e t ≤ (process_novel_command e c).2 t := by
  rw [process_novel_command]
  split
  · rename_i hlt
    by_cases ht : t = c.cmd_type
    · subst ht; simp; omega
    · simp [ht]
  · exact le_refl _

/-- An accepted command's epoch exceeds the initial table entry for its type. -/
theorem flags_from_accepted_gt (cmds : List CmdDict) :
    ∀ (e : Nat → Nat) (j : Nat), (flags_from e cmds).getD j false = true →
      e ((cmds.getD j default).cmd_type) < (cmds.getD j default).epoch_id := by
  induction cmds with
  | nil => intro e j hj; simp [flags_from] at hj
  | cons c cs ih =>
      intro e j hj
      cases j with
      | zero =>
          simp only [flags_from, List.getD_cons_zero] at hj ⊢
          rw [process_novel_command] at hj
          split at hj
          · assumption
          · simp at hj
      | succ j' =>
          simp only [flags_from, List.getD_cons_succ] at hj ⊢
          have h1 := ih (process_novel_command e c).2 j' hj
          have h2 := process_novel_command_mono e c ((cs.getD j' default).cmd_type)
          omega

/-- Claim C2: a NOVEL command is applied iff its epoch_id strictly exceeds the
recorded epoch for its cmd_type (default 0); on apply the recorded epoch
becomes epoch_id, otherwise the table is unchanged; and across any processed
sequence, accepted commands of the same cmd_type carry strictly increasing
epoch_ids. -/
theorem c2_epoch_idempotent (e : Nat → Nat) (c : CmdDict) (cmds : List CmdDict) (i j : Nat) :
    ((process_novel_command e c).1 = true ↔ e c.cmd_type < c.epoch_id) ∧
    ((process_novel_command e c).1 = true →
      (process_novel_command e c).2 = fun t => if t = c.cmd_type then c.epoch_id else e t) ∧
    ((process_novel_command e c).1 = false → (process_novel_command e c).2 = e) ∧
    (i < j → j < cmds.length →
      (flags_from e cmds).getD i false = true →
      (flags_from e cmds).getD j false = true →
      (cmds.getD i default).cmd_type = (cmds.getD j default).cmd_type →
      (cmds.getD i default).epoch_id < (cmds.getD j default).epoch_id) := by
  refine ⟨?_, ?_, ?_, ?_⟩
  · rw [process_novel_command]; split <;> simp_all
  · rw [process_novel_command]; split <;> simp_all
  · rw [process_novel_command]; split <;> simp_all
  · clear c
    induction cmds generalizing e i j with
    | nil => intro _ hj; simp at hj
    | cons c cs ih =>
        intro hij hj hfi hfj hty
        cases i with
        | zero =>
            obtain ⟨j', rfl⟩ : ∃ j', j = j' + 1 := ⟨j - 1, by omega⟩
            simp only [flags_from, List.getD_cons_zero, List.getD_cons_succ] at hfi hfj hty ⊢
            have hlt : e c.cmd_type < c.epoch_id := by
              rw [process_novel_command] at hfi
              split at hfi
              · assumption
              · simp at hfi
            have h2 : (process_novel_command e c).2 =
                fun t => if t = c.cmd_type then c.epoch_id else e t := by
              rw [process_novel_command]
              simp [hlt]
            rw [h2] at hfj
            have := flags_from_accepted_gt cs
              (fun t => if t = c.cmd_type then c.epoch_id else e t) j' hfj
            rw [← hty] at this
            simpa using this
        | succ i' =>
            obtain ⟨j', rfl⟩ : ∃ j', j = j' + 1 := ⟨j - 1, by omega⟩
            simp only [flags_from, List.getD_cons_succ, List.length_cons] at hfi hfj hty hj ⊢
            exact ih (process_novel_command e c).2 i' j' (by omega) (by omega) hfi hfj hty

/-- Witness for C2 on the sequence [(type 7, epoch 1), (type 7, epoch 2)]
starting from the empty epoch table. -/
theorem c2_epoch_idempotent_witness :
    (0 : Nat) < 1 ∧ 1 < ([⟨7, 1, []⟩, ⟨7, 2, []⟩] : List CmdDict).length ∧
    (flags_from (fun _ => 0) [⟨7, 1, []⟩, ⟨7, 2, []⟩]).getD 0 false = true ∧
    (flags_from (fun _ => 0) [⟨7, 1, []⟩, ⟨7, 2, []⟩]).getD 1 false = true ∧
    (([⟨7, 1, []⟩, ⟨7, 2, []⟩] : List CmdDict).getD 0 default).epoch_id <
      (([⟨7, 1, []⟩, ⟨7, 2, []⟩] : List CmdDict).getD 1 default).epoch_id :=
  ⟨by decide, by decide, by decide, by decide,
   (c2_epoch_idempotent (fun _ => 0) ⟨7, 1, []⟩ [⟨7, 1, []⟩, ⟨7, 2, []⟩] 0 1).2.2.2
     (by decide) (by decide) (by decide) (by decide) (by decide)⟩

/-- Python `min` over a nonempty collection, as a left fold ([] gives 0,
a case `min` never sees in the source because of the emptiness guard). -/
def pending_min : List Nat → Nat
  | [] => 0
  | x :: xs => xs.foldl Nat.min x

/-- Bitmap accumulation loop of `AckTracker.generate_ack_bitmap`: for each
pending seq with offset = (seq - base) % 65536 < W, set bit offset. -/
def ack_bitmap_fold (W m : Nat) (pending : List Nat) : Nat :=
  pending.foldl
    (fun bm s => if (s - m) % 65536 < W then bm ||| (1 <<< ((s - m) % 65536)) else bm) 0

/-- `AckTracker.generate_ack_bitmap` for one device: (0, 0) when nothing is
pending, else (min pending seq, bitmap over window offsets). -/
def generate_ack_bitmap (W : Nat) (pending : List Nat) : Nat × Nat :=
  if pending = [] then (0, 0)
  else (pending_min pending, ack_bitmap_fold W (pending_min pending) pending)

theorem foldl_min_le_init (xs : List Nat) : ∀ a : Nat, xs.foldl Nat.min a ≤ a := by
  induction xs with
  | nil => intro a; simp
  | cons x xs ih =>
      intro a
      have h1 := ih (Nat.min a x)
      have h2 : Nat.min a x ≤ a := Nat.min_le_left a x
      simp only [List.foldl_cons]
      exact le_trans h1 h2

theorem foldl_min_mem (xs : List Nat) :
    ∀ a : Nat, xs.foldl Nat.min a = a ∨ xs.foldl Nat.min a ∈ xs := by
  induction xs with
  | nil => intro a; simp
  | cons x xs ih =>
      intro a
      rcases ih (Nat.min a x) with h | h
      · simp only [List.foldl_cons]
        rcases Nat.le_total a x with hax | hxa
        · left; rw [h]; exact Nat.min_eq_left hax
        · right
          have hmx : a.min x = x := Nat.min_eq_right hxa
          rw [h, hmx]
          exact List.mem_cons_self _ _
      · right
        simp only [List.foldl_cons]
        exact List.mem_cons_of_mem _ h

theorem foldl_min_le_mem (xs : List Nat) :
    ∀ (a : Nat), ∀ s ∈ xs, xs.foldl Nat.min a ≤ s := by
  induction xs with
  | nil => intro a s hs; simp at hs
  | cons x xs ih =>
      intro a s hs
      simp only [List.foldl_cons]
      rcases List.mem_cons.mp hs with rfl | hs'
      · have h1 := foldl_min_le_init xs (Nat.min a s)
        exact le_trans h1 (Nat.min_le_right a s)
      · exact ih _ s hs'

theorem pending_min_mem (pending : List Nat) (h : pending ≠ []) :
    pending_min pending ∈ pending := by
  match pending with
  | [] => exact absurd rfl h
  | x :: xs =>
      rw [pending_min]
      rcases foldl_min_mem xs x with h1 | h1
      · rw [h1]; exact List.mem_cons_self _ _
      · exact List.mem_cons_of_mem _ h1

theorem pending_min_le (pending : List Nat) : ∀ s ∈ pending, pending_min pending ≤ s := by
  match pending with
  | [] => intro s hs; simp at hs
  | x :: xs =>
      intro s hs
      rw [pending_min]
      rcases List.mem_cons.mp hs with rfl | hs'
      · exact foldl_min_le_init xs s
      · exact foldl_min_le_mem xs x s hs'

theorem ack_bitmap_fold_testBit_aux (W m : Nat) (l : List Nat) :
    ∀ (acc d : Nat),
      (l.foldl
        (fun bm s => if (s - m) % 65536 < W then bm ||| (1 <<< ((s - m) % 65536)) else bm)
        acc).testBit d = true ↔
      (acc.testBit d = true ∨ ∃ s ∈ l, (s - m) % 65536 = d ∧ d < W) := by
  induction l with
  | nil => intro acc d; simp
  | cons s l ih =>
      intro acc d
      simp only [List.foldl_cons]
      rw [ih]
      by_cases hc : (s - m) % 65536 < W
      · rw [if_pos hc]
        have hsl : (1 : Nat) <<< ((s - m) % 65536) = 2 ^ ((s - m) % 65536) := by
          rw [Nat.shiftLeft_eq, one_mul]
        rw [hsl]
        constructor
        · rintro (hb | hrest)
          · rw [Nat.testBit_or] at hb
            rcases Bool.or_eq_true_iff.mp hb with hb' | hb'
            · exact Or.inl hb'
            · rw [Nat.testBit_two_pow] at hb'
              right
              exact ⟨s, List.mem_cons_self _ _, of_decide_eq_true hb', by
                have := of_decide_eq_true hb'; omega⟩
          · rcases hrest with ⟨s', hs', hoff, hd⟩
            exact Or.inr ⟨s', List.mem_cons_of_mem _ hs', hoff, hd⟩
        · rintro (hb | ⟨s', hs', hoff, hd⟩)
          · left; rw [Nat.testBit_or, hb]; simp
          · rcases List.mem_cons.mp hs' with rfl | hs''
            · left
              rw [Nat.testBit_or, Nat.testBit_two_pow]
              simp [hoff]
            · right; exact ⟨s', hs'', hoff, hd⟩
      · rw [if_neg hc]
        constructor
        · rintro (hb | ⟨s', hs', hoff, hd⟩)
          · exact Or.inl hb
          · exact Or.inr ⟨s', List.mem_cons_of_mem _ hs', hoff, hd⟩
        · rintro (hb | ⟨s', hs', hoff, hd⟩)
          · exact Or.inl hb
          · rcases List.mem_cons.mp hs' with rfl | hs''
            · exact absurd (hoff ▸ hd) hc
            · exact Or.inr ⟨s', hs'', hoff, hd⟩

/-- Claim C3: generate_ack_bitmap returns (0,0) on an empty pending map;
otherwise its base is the minimum pending sequence number and bit d of the
bitmap is set exactly when some pending seq has offset
(seq - base) mod 2^16 = d with d < W; no other bits are set. -/
theorem c3_generate_ack_bitmap (W : Nat) (pending : List Nat) :
    (pending = [] → generate_ack_bitmap W pending = (0, 0)) ∧
    (pending ≠ [] →
      (generate_ack_bitmap W pending).1 ∈ pending ∧
      (∀ s ∈ pending, (generate_ack_bitmap W pending).1 ≤ s) ∧
      (∀ d, (generate_ack_bitmap W pending).2.testBit d = true ↔
        ∃ s ∈ pending, (s - (generate_ack_bitmap W pending).1) % 65536 = d ∧ d < W)) := by
  constructor
  · intro h; rw [generate_ack_bitmap, if_pos h]
  · intro h
    rw [generate_ack_bitmap, if_neg h]
    refine ⟨pending_min_mem pending h, pending_min_le pending, ?_⟩
    intro d
    rw [ack_bitmap_fold, ack_bitmap_fold_testBit_aux]
    simp

/-- Witness for C3 on the pending set {5, 3, 20} with window 16. -/
theorem c3_generate_ack_bitmap_witness :
    ([5, 3, 20] : List Nat) ≠ [] ∧
    ((generate_ack_bitmap 16 [5, 3, 20]).1 ∈ [5, 3, 20] ∧
     (∀ s ∈ [5, 3, 20], (generate_ack_bitmap 16 [5, 3, 20]).1 ≤ s) ∧
     (∀ d, (generate_ack_bitmap 16 [5, 3, 20]).2.testBit d = true ↔
       ∃ s ∈ [5, 3, 20], (s - (generate_ack_bitmap 16 [5, 3, 20]).1) % 65536 = d ∧ d < 16)) :=
  ⟨by decide, (c3_generate_ack_bitmap 16 [5, 3, 20]).2 (by decide)⟩

/-- `PendingCommand.__lt__`: compare priority first (lower wins), then
deadline. -/
def cmd_lt (a b : PendingCommand) : Bool :=
  if a.priority ≠ b.priority then decide (a.priority < b.priority)
  else decide (a.deadline_ms < b.deadline_ms)

/-- The non-strict order underlying `cmd_lt`: a comes no later than b. -/
def cmd_le (a b : PendingCommand) : Prop := cmd_lt b a = false

theorem cmd_lt_asymm (a b : PendingCommand) (h : cmd_lt a b = true) : cmd_lt b a = false := by
  rw [cmd_lt] at h ⊢
  split at h <;> split <;> simp_all <;> omega

theorem cmd_le_total (a b : PendingCommand) : cmd_le a b ∨ cmd_le b a := by
  rw [cmd_le, cmd_le, cmd_lt, cmd_lt]
  split <;> split <;> simp_all <;> omega

theorem cmd_le_trans_lt (a b c : PendingCommand) (h1 : cmd_lt b a = false)
    (h2 : cmd_lt c b = false) : cmd_lt c a = false := by
  rw [cmd_lt] at h1 h2 ⊢
  split at h1 <;> split at h2 <;> split <;> simp_all <;> omega

/-- Two commands tie exactly when they carry the same (priority, deadline)
key; `cmd_lt` then ranks any third command identically against either. -/
theorem cmd_lt_tie_congr (x y b : PendingCommand)
    (hp : x.priority = y.priority) (hd : x.deadline_ms = y.deadline_ms) :
    cmd_lt y b = cmd_lt x b ∧ cmd_lt b y = cmd_lt b x := by
  rw [cmd_lt, cmd_lt, cmd_lt, cmd_lt, hp, hd]
  constructor <;> rfl

/-- Stable insertion: place the new element before the first strictly greater
one, hence after every element it ties with. -/
def insertSorted (a : PendingCommand) : List PendingCommand → List PendingCommand
  | [] => [a]
  | b :: bs => if cmd_lt a b then a :: b :: bs else b :: insertSorted a bs

/-- Python's `sorted` under the (priority, deadline_ms) order — a stable
ascending sort, used both by `get_commands_for_device`
(`sorted(queue, key=lambda c: (c.priority, c.deadline_ms))`) and by
`heapq.nsmallest` (documented as `sorted(iterable)[:n]` via
`PendingCommand.__lt__`, which compares exactly that key).  Stable sorts of a
list under a fixed total preorder coincide, so insertion sort processing the
list left to right and placing each element after its ties is that sort. -/
def sortStable (l : List PendingCommand) : List PendingCommand :=
  l.foldl (fun acc a => insertSorted a acc) []

theorem cmd_lt_irrefl (a : PendingCommand) : cmd_lt a a = false := by
  rw [cmd_lt]; simp

theorem insertSorted_perm (a : PendingCommand) (l : List PendingCommand) :
    (insertSorted a l).Perm (a :: l) := by
  induction l with
  | nil => exact List.Perm.refl _
  | cons b bs ih =>
      rw [insertSorted]
      split
      · exact List.Perm.refl _
      · exact (ih.cons b).trans (List.Perm.swap a b bs)

theorem sortStable_perm_aux (l : List PendingCommand) :
    ∀ acc, (l.foldl (fun acc a => insertSorted a acc) acc).Perm (acc ++ l) := by
  induction l with
  | nil => intro acc; simp
  | cons a as ih =>
      intro acc
      simp only [List.foldl_cons]
      refine (ih (insertSorted a acc)).trans ?_
      have h1 : (insertSorted a acc ++ as).Perm ((a :: acc) ++ as) :=
        (insertSorted_perm a acc).append_right as
      refine h1.trans ?_
      simpa using List.perm_middle.symm

theorem sortStable_perm (l : List PendingCommand) : (sortStable l).Perm l := by
  simpa using sortStable_perm_aux l []

theorem mem_insertSorted (x a : PendingCommand) (l : List PendingCommand) :
    x ∈ insertSorted a l ↔ x = a ∨ x ∈ l := by
  rw [(insertSorted_perm a l).mem_iff, List.mem_cons]

theorem insertSorted_sorted (a : PendingCommand) (l : List PendingCommand)
    (h : l.Pairwise cmd_le) : (insertSorted a l).Pairwise cmd_le := by
  induction l with
  | nil => simp [insertSorted, List.pairwise_cons]
  | cons b bs ih =>
      rw [List.pairwise_cons] at h
      obtain ⟨hb, hbs⟩ := h
      rw [insertSorted]
      split
      · rename_i hab
        rw [List.pairwise_cons]
        refine ⟨?_, ?_⟩
        · intro x hx
          rcases List.mem_cons.mp hx with rfl | hx'
          · exact cmd_lt_asymm a x hab
          · exact cmd_le_trans_lt _ _ _ (cmd_lt_asymm a b hab) (hb x hx')
        · rw [List.pairwise_cons]; exact ⟨hb, hbs⟩
      · rename_i hab
        rw [List.pairwise_cons]
        refine ⟨?_, ih hbs⟩
        intro x hx
        rcases (mem_insertSorted x a bs).mp hx with rfl | hx'
        · simpa using hab
        · exact hb x hx'

theorem sortStable_sorted (l : List PendingCommand) : (sortStable l).Pairwise cmd_le := by
  rw [sortStable]
  have haux : ∀ acc, acc.Pairwise cmd_le →
      (l.foldl (fun acc a => insertSorted a acc) acc).Pairwise cmd_le := by
    induction l with
    | nil => intro acc h; simpa using h
    | cons a as ih =>
        intro acc h
        simp only [List.foldl_cons]
        exact ih _ (insertSorted_sorted a acc h)
  exact haux [] (by simp)

theorem sublist_insertSorted (a : PendingCommand) (l : List PendingCommand) :
    l.Sublist (insertSorted a l) := by
  induction l with
  | nil => simp [insertSorted]
  | cons b bs ih =>
      rw [insertSorted]
      split
      · exact List.sublist_cons_self a (b :: bs)
      · exact List.Sublist.cons₂ b ih

theorem sublist_foldl_insertSorted (l : List PendingCommand) :
    ∀ acc : List PendingCommand, acc.Sublist (l.foldl (fun acc a => insertSorted a acc) acc) := by
  induction l with
  | nil => intro acc; exact List.Sublist.refl acc
  | cons a as ih =>
      intro acc
      simp only [List.foldl_cons]
      exact (sublist_insertSorted a acc).trans (ih (insertSorted a acc))

/-- Inserting a command that ties with a member `x` of a sorted accumulator
places it strictly after `x`. -/
theorem insertSorted_after_tie (x y : PendingCommand) (l : List PendingCommand)
    (hsort : l.Pairwise cmd_le) (hmem : x ∈ l)
    (hp : x.priority = y.priority) (hd : x.deadline_ms = y.deadline_ms) :
    [x, y].Sublist (insertSorted y l) := by
  induction l with
  | nil => simp at hmem
  | cons b bs ih =>
      rw [List.pairwise_cons] at hsort
      obtain ⟨hb, hbs⟩ := hsort
      rw [insertSorted]
      split
      · rename_i hyb
        exfalso
        have h1 : cmd_lt y b = cmd_lt x b := (cmd_lt_tie_congr x y b hp hd).1
        rcases List.mem_cons.mp hmem with hxb | hmem'
        · rw [hxb] at h1
          rw [h1, cmd_lt_irrefl b] at hyb
          exact Bool.noConfusion hyb
        · have hxble := hb x hmem'
          rw [cmd_le] at hxble
          rw [h1, hxble] at hyb
          exact Bool.noConfusion hyb
      · rcases List.mem_cons.mp hmem with hxb | hmem'
        · subst hxb
          refine List.Sublist.cons₂ x ?_
          have hy : y ∈ insertSorted y bs := (mem_insertSorted y y bs).mpr (Or.inl rfl)
          exact (List.singleton_sublist).mpr hy
        · exact List.Sublist.cons b (ih hbs hmem')

/-- Stability of the embedded sort: two tied commands keep their relative
order from the input list. -/
theorem sortStable_stable (c1 c2 : PendingCommand) (l : List PendingCommand)
    (hp : c1.priority = c2.priority) (hd : c1.deadline_ms = c2.deadline_ms)
    (hsub : [c1, c2].Sublist l) : [c1, c2].Sublist (sortStable l) := by
  rw [sortStable]
  -- once c1 is in the accumulator, inserting c2 puts it after c1, and later
  -- insertions only extend the accumulator
  have step2 : ∀ (rest : List PendingCommand) (acc : List PendingCommand),
      acc.Pairwise cmd_le → c1 ∈ acc → c2 ∈ rest →
      [c1, c2].Sublist (rest.foldl (fun acc a => insertSorted a acc) acc) := by
    intro rest
    induction rest with
    | nil => intro acc _ _ h2; simp at h2
    | cons a as ih =>
        intro acc hsort h1 h2
        simp only [List.foldl_cons]
        rcases List.mem_cons.mp h2 with rfl | h2'
        · have hin : [c1, c2].Sublist (insertSorted c2 acc) :=
            insertSorted_after_tie c1 c2 acc hsort h1 hp hd
          exact hin.trans (sublist_foldl_insertSorted as _)
        · exact ih (insertSorted a acc) (insertSorted_sorted a acc hsort)
            ((mem_insertSorted c1 a acc).mpr (Or.inr h1)) h2'
  have step1 : ∀ (rest : List PendingCommand) (acc : List PendingCommand),
      acc.Pairwise cmd_le → [c1, c2].Sublist rest →
      [c1, c2].Sublist (rest.foldl (fun acc a => insertSorted a acc) acc) := by
    intro rest
    induction rest with
    | nil => intro acc _ h; simp at h
    | cons a as ih =>
        intro acc hsort h
        simp only [List.foldl_cons]
        cases h with
        | cons _ h' => exact ih (insertSorted a acc) (insertSorted_sorted a acc hsort) h'
        | cons₂ _ h' =>
            exact step2 as (insertSorted c1 acc) (insertSorted_sorted c1 acc hsort)
              ((mem_insertSorted c1 c1 acc).mpr (Or.inl rfl))
              (List.singleton_sublist.mp h')
  exact step1 l [] (by simp) hsub

section Heap

variable {α : Type} [DecidableEq α]

/-- `heapq._siftdown(heap, startpos, pos)` with `newitem = heap[pos]` saved:
while pos > startpos, move the parent `heap[(pos-1)//2]` down when newitem
sorts strictly below it, else stop; finally store newitem.  The fuel argument
bounds the loop (pos strictly decreases, so `pos` iterations always suffice;
at fuel 0 the loop condition is already false). -/
def siftdownFuel (lt : α → α → Bool) (sp : Nat) (newitem : α) :
    Nat → List α → Nat → List α
  | 0, heap, pos => heap.set pos newitem
  | fuel + 1, heap, pos =>
      if sp < pos then
        if lt newitem (heap.getD ((pos - 1) / 2) newitem) then
          siftdownFuel lt sp newitem fuel
            (heap.set pos (heap.getD ((pos - 1) / 2) newitem)) ((pos - 1) / 2)
        else heap.set pos newitem
      else heap.set pos newitem

/-- `heapq.heappush`: append the item and sift it down from the last slot
toward the root. -/
def heappush (lt : α → α → Bool) (heap : List α) (item : α) : List α :=
  siftdownFuel lt 0 item heap.length (heap ++ [item]) heap.length

/-- Child selection inside `heapq._siftup`: take the right child when it
exists and the left child does not sort strictly below it. -/
def heapChildSel (lt : α → α → Bool) (endpos : Nat) (newitem : α)
    (heap : List α) (pos : Nat) : Nat :=
  if 2 * pos + 1 + 1 < endpos ∧
     lt (heap.getD (2 * pos + 1) newitem) (heap.getD (2 * pos + 1 + 1) newitem) = false
  then 2 * pos + 1 + 1 else 2 * pos + 1

/-- The descending phase of `heapq._siftup`: follow the smaller child down,
moving children up, until reaching a leaf; returns the heap and the final
position.  Fuel bounds the loop (the position strictly increases and stays
below endpos, so `endpos - pos` iterations suffice; at fuel 0 the loop
condition is already false). -/
def siftupFuel (lt : α → α → Bool) (endpos : Nat) (newitem : α) :
    Nat → List α → Nat → List α × Nat
  | 0, heap, pos => (heap, pos)
  | fuel + 1, heap, pos =>
      if 2 * pos + 1 < endpos then
        siftupFuel lt endpos newitem fuel
          (heap.set pos (heap.getD (heapChildSel lt endpos newitem heap pos) newitem))
          (heapChildSel lt endpos newitem heap pos)
      else (heap, pos)

/-- `heapq._siftup(heap, pos)`: save `newitem = heap[pos]`, bubble the smaller
child chain up to a leaf, place newitem there, then sift it down toward the
original position. -/
def siftup [Inhabited α] (lt : α → α → Bool) (heap : List α) (pos : Nat) : List α :=
  siftdownFuel lt pos (heap.getD pos default)
    (siftupFuel lt heap.length (heap.getD pos default) (heap.length - pos) heap pos).2
    (siftupFuel lt heap.length (heap.getD pos default) (heap.length - pos) heap pos).1
    (siftupFuel lt heap.length (heap.getD pos default) (heap.length - pos) heap pos).2

/-- `heapq.heapify`: `for i in reversed(range(n//2)): _siftup(x, i)`. -/
def heapify [Inhabited α] (lt : α → α → Bool) (heap : List α) : List α :=
  ((List.range (heap.length / 2)).reverse).foldl (fun h i => siftup lt h i) heap

omit [DecidableEq α] in
/-- Writing a list's own element back into its slot changes nothing. -/
theorem list_set_self (l : List α) (i : Nat) (h : i < l.length) : l.set i l[i] = l := by
  apply List.ext_getElem
  · simp
  · intro n h1 h2
    simp only [List.getElem_set]
    split
    · rename_i hin; subst hin; rfl
    · rfl

/-- Overwriting position i with the value at position j and then position j
with a fresh value permutes the list obtained by writing the fresh value at
position i directly. -/
theorem set_set_perm (l : List α) (i j : Nat) (d : α)
    (hi : i < l.length) (hj : j < l.length) (hij : i ≠ j) (a : α) :
    ((l.set i (l.getD j d)).set j a).Perm (l.set i a) := by
  rw [List.perm_iff_count]
  intro b
  have hgd : l.getD j d = l[j] := List.getD_eq_getElem l d hj
  have hj2 : j < (l.set i (l.getD j d)).length := by simpa using hj
  rw [List.count_set a b _ j hj2, List.count_set (l.getD j d) b l i hi,
      List.count_set a b l i hi]
  have hje : (l.set i (l.getD j d))[j] = l[j] := by
    rw [List.getElem_set]
    simp [hij]
  rw [hje, hgd]
  split_ifs <;> omega

theorem siftdownFuel_perm (lt : α → α → Bool) (sp : Nat) (newitem : α) :
    ∀ (fuel : Nat) (heap : List α) (pos : Nat), pos < heap.length → pos ≤ fuel →
      (siftdownFuel lt sp newitem fuel heap pos).Perm (heap.set pos newitem) := by
  intro fuel
  induction fuel with
  | zero => intro heap pos _ _; exact List.Perm.refl _
  | succ fuel ih =>
      intro heap pos hpos hfuel
      rw [siftdownFuel]
      split
      · rename_i hsp
        split
        · rename_i hlt
          have hpp : (pos - 1) / 2 < pos := by omega
          have h1 := ih (heap.set pos (heap.getD ((pos - 1) / 2) newitem)) ((pos - 1) / 2)
            (by simpa using lt_trans hpp hpos) (by omega)
          refine h1.trans ?_
          exact set_set_perm heap pos ((pos - 1) / 2) newitem hpos
            (lt_trans hpp hpos) (by omega) newitem
        · exact List.Perm.refl _
      · exact List.Perm.refl _

/-- `heappush` permutes consing the new item onto the heap. -/
theorem heappush_perm (lt : α → α → Bool) (heap : List α) (item : α) :
    (heappush lt heap item).Perm (item :: heap) := by
  rw [heappush]
  have h1 := siftdownFuel_perm lt 0 item heap.length (heap ++ [item]) heap.length
    (by simp) (le_refl _)
  refine h1.trans ?_
  have h2 : (heap ++ [item]).set heap.length item = heap ++ [item] := by
    rw [List.set_append_right] <;> simp
  rw [h2]
  exact List.perm_append_singleton item heap

omit [DecidableEq α] in
theorem heapChildSel_bounds (lt : α → α → Bool) (endpos : Nat) (newitem : α)
    (heap : List α) (pos : Nat) (h : 2 * pos + 1 < endpos) :
    pos < heapChildSel lt endpos newitem heap pos ∧
    heapChildSel lt endpos newitem heap pos < endpos := by
  rw [heapChildSel]; split <;> omega

theorem siftupFuel_spec (lt : α → α → Bool) (endpos : Nat) (newitem : α) :
    ∀ (fuel : Nat) (heap : List α) (pos : Nat), pos < endpos → endpos ≤ heap.length →
      endpos - pos ≤ fuel →
      (siftupFuel lt endpos newitem fuel heap pos).2 < endpos ∧
      (siftupFuel lt endpos newitem fuel heap pos).1.length = heap.length ∧
      ∀ a, ((siftupFuel lt endpos newitem fuel heap pos).1.set
              (siftupFuel lt endpos newitem fuel heap pos).2 a).Perm (heap.set pos a) := by
  intro fuel
  induction fuel with
  | zero => intro heap pos hpos _ hf; omega
  | succ fuel ih =>
      intro heap pos hpos hend hf
      rw [siftupFuel]
      split
      · rename_i hchild
        obtain ⟨hcp_gt, hcp_lt⟩ := heapChildSel_bounds lt endpos newitem heap pos hchild
        have hlen : (heap.set pos
            (heap.getD (heapChildSel lt endpos newitem heap pos) newitem)).length =
            heap.length := by simp
        obtain ⟨s1, s2, s3⟩ := ih
          (heap.set pos (heap.getD (heapChildSel lt endpos newitem heap pos) newitem))
          (heapChildSel lt endpos newitem heap pos) hcp_lt (by omega) (by omega)
        refine ⟨s1, by omega, ?_⟩
        intro a
        refine (s3 a).trans ?_
        exact set_set_perm heap pos (heapChildSel lt endpos newitem heap pos) newitem
          (by omega) (by omega) (by omega) a
      · exact ⟨hpos, rfl, fun a => List.Perm.refl _⟩

/-- One `_siftup` call permutes the heap. -/
theorem siftup_perm [Inhabited α] (lt : α → α → Bool) (heap : List α) (pos : Nat)
    (hpos : pos < heap.length) : (siftup lt heap pos).Perm heap := by
  rw [siftup]
  obtain ⟨s1, s2, s3⟩ := siftupFuel_spec lt heap.length (heap.getD pos default)
    (heap.length - pos) heap pos hpos (le_refl _) (le_refl _)
  have h1 := siftdownFuel_perm lt pos (heap.getD pos default)
    (siftupFuel lt heap.length (heap.getD pos default) (heap.length - pos) heap pos).2
    (siftupFuel lt heap.length (heap.getD pos default) (heap.length - pos) heap pos).1
    (siftupFuel lt heap.length (heap.getD pos default) (heap.length - pos) heap pos).2
    (by omega) (le_refl _)
  refine h1.trans ?_
  refine (s3 (heap.getD pos default)).trans ?_
  rw [List.getD_eq_getElem heap default hpos, list_set_self heap pos hpos]

/-- `heapify` permutes the heap. -/
theorem heapify_perm [Inhabited α] (lt : α → α → Bool) (heap : List α) :
    (heapify lt heap).Perm heap := by
  rw [heapify]
  have haux : ∀ (is : List Nat) (h : List α), (∀ i ∈ is, i < h.length) →
      (is.foldl (fun h i => siftup lt h i) h).Perm h := by
    intro is
    induction is with
    | nil => intro h _; exact List.Perm.refl _
    | cons i is ih =>
        intro h hmem
        simp only [List.foldl_cons]
        have h1 : i < h.length := hmem i (List.mem_cons_self _ _)
        have h2 := siftup_perm lt h i h1
        have h3 := ih (siftup lt h i) (by
          intro j hj
          rw [h2.length_eq]
          exact hmem j (List.mem_cons_of_mem _ hj))
        exact h3.trans h2
  refine haux _ heap ?_
  intro i hi
  rw [List.mem_reverse, List.mem_range] at hi
  omega

end Heap

/-- Size charged to a command in the downlink payload budget:
`len(cmd.payload) + 4` bytes of per-command header overhead. -/
def cmd_size (c : PendingCommand) : Nat := c.payload.length + 4

/-- Protocol filter of `get_commands_for_device`: entries are skipped when a
protocol is given and differs from the command's. -/
def protoOk (protoF : Option Nat) (c : PendingCommand) : Bool :=
  match protoF with
  | none => true
  | some p => c.protocol == p

/-- Selection loop of `get_commands_for_device` over the candidates sorted by
(priority, deadline): skip protocol mismatches and expired commands
(`deadline_ms < now`); take a command when its size fits the remaining
payload budget and fewer than `budget` commands are selected so far. -/
def select_go (protoF : Option Nat) (now budget : Nat) :
    List PendingCommand → Nat → Nat → List PendingCommand
  | [], _, _ => []
  | c :: cs, remaining, cnt =>
      if protoOk protoF c = true ∧ now ≤ c.deadline_ms ∧
         cmd_size c ≤ remaining ∧ cnt < budget then
        c :: select_go protoF now budget cs (remaining - cmd_size c) (cnt + 1)
      else select_go protoF now budget cs remaining cnt

/-- `CommandScheduler.get_commands_for_device(device, budget, now, max_payload,
protocol)`: sort a copy of the per-device queue by (priority, deadline)
(stable with respect to the queue's current array order), greedily select,
remove each selected entry from the queue (`list.remove`, first equal
occurrence) and re-heapify.  Returns (selected, new queue). -/
def get_commands_for_device (queue : List PendingCommand)
    (budget now max_payload : Nat) (protoF : Option Nat) :
    List PendingCommand × List PendingCommand :=
  (select_go protoF now budget (sortStable queue) max_payload 0,
   heapify cmd_lt
     ((select_go protoF now budget (sortStable queue) max_payload 0).foldl
       (fun q c => q.erase c) queue))

/-- `CommandScheduler.enqueue(cmd)`: heappush onto the per-device queue and,
when the queue then exceeds `queue_size`, keep `heapq.nsmallest(queue_size, queue)`
(= the stable sort cut to queue_size) and re-heapify. -/
def enqueue (queue_size : Nat) (queue : List PendingCommand) (cmd : PendingCommand) :
    List PendingCommand :=
  if queue_size < (heappush cmd_lt queue cmd).length then
    heapify cmd_lt ((sortStable (heappush cmd_lt queue cmd)).take queue_size)
  else heappush cmd_lt queue cmd

theorem select_go_sublist (protoF : Option Nat) (now budget : Nat) :
    ∀ (l : List PendingCommand) (remaining cnt : Nat),
      (select_go protoF now budget l remaining cnt).Sublist l := by
  intro l
  induction l with
  | nil => intro r c; exact List.Sublist.refl _
  | cons c cs ih =>
      intro r cnt
      rw [select_go]
      split
      · exact List.Sublist.cons₂ c (ih _ _)
      · exact List.Sublist.cons c (ih _ _)

theorem select_go_length (protoF : Option Nat) (now budget : Nat) :
    ∀ (l : List PendingCommand) (remaining cnt : Nat),
      (select_go protoF now budget l remaining cnt).length + cnt ≤ budget ∨
      (select_go protoF now budget l remaining cnt) = [] := by
  intro l
  induction l with
  | nil => intro r c; exact Or.inr rfl
  | cons c cs ih =>
      intro r cnt
      rw [select_go]
      split
      · rename_i hcond
        left
        rcases ih (r - cmd_size c) (cnt + 1) with h | h
        · simp only [List.length_cons]; omega
        · rw [h]; simp; omega
      · exact ih r cnt

theorem select_go_mem (protoF : Option Nat) (now budget : Nat) :
    ∀ (l : List PendingCommand) (remaining cnt : Nat),
      ∀ c ∈ select_go protoF now budget l remaining cnt,
        protoOk protoF c = true ∧ now ≤ c.deadline_ms := by
  intro l
  induction l with
  | nil => intro r cnt c hc; simp [select_go] at hc
  | cons a as ih =>
      intro r cnt c hc
      rw [select_go] at hc
      split at hc
      · rename_i hcond
        rcases List.mem_cons.mp hc with rfl | hc'
        · exact ⟨hcond.1, hcond.2.1⟩
        · exact ih _ _ c hc'
      · exact ih _ _ c hc

theorem select_go_size (protoF : Option Nat) (now budget : Nat) :
    ∀ (l : List PendingCommand) (remaining cnt : Nat),
      ((select_go protoF now budget l remaining cnt).map cmd_size).sum ≤ remaining := by
  intro l
  induction l with
  | nil => intro r cnt; simp [select_go]
  | cons a as ih =>
      intro r cnt
      rw [select_go]
      split
      · rename_i hcond
        have h1 := ih (r - cmd_size a) (cnt + 1)
        simp only [List.map_cons, List.sum_cons]
        omega
      · exact ih r cnt

theorem foldl_erase_count (sel : List PendingCommand) :
    ∀ (q : List PendingCommand), (∀ c, sel.count c ≤ q.count c) →
      ∀ c, (sel.foldl (fun q c => q.erase c) q).count c = q.count c - sel.count c := by
  induction sel with
  | nil => intro q _ c; simp
  | cons a sel ih =>
      intro q hle c
      simp only [List.foldl_cons]
      have hsub : ∀ c, sel.count c ≤ (q.erase a).count c := by
        intro c'
        have h1 := hle c'
        rw [List.count_erase]
        rw [List.count_cons] at h1
        by_cases hac : a = c'
        · subst hac; simp at h1 ⊢; omega
        · have hbeq : (a == c') = false := by simpa using hac
          rw [hbeq] at h1 ⊢
          simpa using h1
      have h2 := ih (q.erase a) hsub c
      rw [h2, List.count_erase, List.count_cons]
      have h3 := hle a
      rw [List.count_cons] at h3
      by_cases hac : a = c
      · subst hac; simp at h3 ⊢; omega
      · have hbeq : (a == c) = false := by simpa using hac
        rw [hbeq]
        simp

/-- Claim C4: get_commands_for_device returns at most `budget` commands, all
matching the protocol tag and still live (deadline ≥ now), greedily chosen in
(priority, deadline) ascending order with cumulative size
(payload + 4 B overhead) within `max_payload`; exactly the returned commands
are removed from the per-device queue (counted with multiplicity) and every
other queued command remains. -/
theorem c4_get_commands_for_device (queue : List PendingCommand)
    (budget now max_payload p : Nat) :
    (get_commands_for_device queue budget now max_payload (some p)).1.length ≤ budget ∧
    (∀ c ∈ (get_commands_for_device queue budget now max_payload (some p)).1,
       c.protocol = p ∧ now ≤ c.deadline_ms) ∧
    ((get_commands_for_device queue budget now max_payload (some p)).1.map cmd_size).sum
        ≤ max_payload ∧
    ((get_commands_for_device queue budget now max_payload (some p)).1).Pairwise cmd_le ∧
    (∀ c, ((get_commands_for_device queue budget now max_payload (some p)).1).count c
        ≤ queue.count c) ∧
    (∀ c, ((get_commands_for_device queue budget now max_payload (some p)).2).count c
        = queue.count c
          - ((get_commands_for_device queue budget now max_payload (some p)).1).count c) := by
  have hsub : (select_go (some p) now budget (sortStable queue) max_payload 0).Sublist
      (sortStable queue) := select_go_sublist (some p) now budget (sortStable queue) max_payload 0
  have hperm := sortStable_perm queue
  have hcount : ∀ c, (select_go (some p) now budget (sortStable queue) max_payload 0).count c
      ≤ queue.count c := by
    intro c
    have h1 := hsub.count_le c
    rw [hperm.count_eq c] at h1
    exact h1
  simp only [get_commands_for_device]
  refine ⟨?_, ?_, ?_, ?_, hcount, ?_⟩
  · rcases select_go_length (some p) now budget (sortStable queue) max_payload 0 with h | h
    · omega
    · rw [h]; simp
  · intro c hc
    obtain ⟨h1, h2⟩ := select_go_mem (some p) now budget (sortStable queue) max_payload 0 c hc
    rw [protoOk] at h1
    exact ⟨by simpa using h1, h2⟩
  · exact select_go_size (some p) now budget (sortStable queue) max_payload 0
  · exact (sortStable_sorted queue).sublist hsub
  · intro c
    have h1 := (heapify_perm cmd_lt
      ((select_go (some p) now budget (sortStable queue) max_payload 0).foldl
        (fun q c => q.erase c) queue)).count_eq c
    rw [h1]
    exact foldl_erase_count _ queue hcount c

/-- Commands for the C4 witness: one matching live command and one with a
different protocol tag. -/
def c4wa : PendingCommand :=
  { cmd_id := 1, device_id := 4, protocol := 0, cmd_type := 2, payload := [9, 9],
    epoch_id := 1, priority := 1, deadline_ms := 900, created_ms := 0,
    probability_target := 1, retries := 0, max_retries := 2 }

def c4wb : PendingCommand :=
  { cmd_id := 2, device_id := 4, protocol := 1, cmd_type := 2, payload := [8],
    epoch_id := 1, priority := 0, deadline_ms := 800, created_ms := 0,
    probability_target := 1, retries := 0, max_retries := 2 }

/-- Witness for C4 on the queue [c4wa, c4wb] with protocol tag 0. -/
theorem c4_get_commands_for_device_witness :
    c4wa ∈ (get_commands_for_device [c4wa, c4wb] 3 5 50 (some 0)).1 ∧
    (c4wa.protocol = 0 ∧ 5 ≤ c4wa.deadline_ms) :=
  ⟨by decide, (c4_get_commands_for_device [c4wa, c4wb] 3 5 50 0).2.1 c4wa (by decide)⟩

/-- C5 counterexample commands: c5a (critical), c5b (best-effort, far
deadline), and the tied pair c5c / c5d with identical (priority, deadline);
c5c is enqueued before c5d. -/
def c5a : PendingCommand :=
  { cmd_id := 0, device_id := 1, protocol := 0, cmd_type := 0, payload := [],
    epoch_id := 1, priority := 0, deadline_ms := 0, created_ms := 0,
    probability_target := 1, retries := 0, max_retries := 3 }

def c5b : PendingCommand :=
  { cmd_id := 1, device_id := 1, protocol := 0, cmd_type := 1, payload := [],
    epoch_id := 1, priority := 2, deadline_ms := 100, created_ms := 0,
    probability_target := 1, retries := 0, max_retries := 3 }

def c5c : PendingCommand :=
  { cmd_id := 2, device_id := 1, protocol := 0, cmd_type := 2, payload := [],
    epoch_id := 1, priority := 1, deadline_ms := 50, created_ms := 0,
    probability_target := 1, retries := 0, max_retries := 3 }

def c5d : PendingCommand :=
  { cmd_id := 3, device_id := 1, protocol := 0, cmd_type := 3, payload := [],
    epoch_id := 1, priority := 1, deadline_ms := 50, created_ms := 0,
    probability_target := 1, retries := 0, max_retries := 3 }

/-- Claim C5 fails on the code: enqueueing c5a, c5b, c5c, c5d in that order
(default queue_size 1000) leaves the heap array as [c5a, c5d, c5c, c5b]
(the heappush of c5d displaces c5b and lands above c5c), so extraction
returns the tied pair in the order c5d before c5c — the reverse of their
insertion order. -/
theorem c5_counterexample :
    c5c.priority = c5d.priority ∧ c5c.deadline_ms = c5d.deadline_ms ∧
    enqueue 1000 (enqueue 1000 (enqueue 1000 (enqueue 1000 [] c5a) c5b) c5c) c5d =
      [c5a, c5d, c5c, c5b] ∧
    (get_commands_for_device
        (enqueue 1000 (enqueue 1000 (enqueue 1000 (enqueue 1000 [] c5a) c5b) c5c) c5d)
        4 0 50 (some 0)).1 = [c5a, c5d, c5c, c5b] := by
  decide

/-- Amended C5: extraction scans commands in the stable sort of the queue's
current backing array, so two commands with identical (priority, deadline_ms)
are extracted in their current array order — which heap pushes may have
permuted away from insertion order — and the selected list is always a
subsequence of that stable sort. -/
theorem c5_tie_extraction_order (queue : List PendingCommand)
    (budget now max_payload p : Nat) (c1 c2 : PendingCommand)
    (hp : c1.priority = c2.priority) (hd : c1.deadline_ms = c2.deadline_ms)
    (hsub : [c1, c2].Sublist queue) :
    [c1, c2].Sublist (sortStable queue) ∧
    (get_commands_for_device queue budget now max_payload (some p)).1.Sublist
      (sortStable queue) := by
  refine ⟨sortStable_stable c1 c2 queue hp hd hsub, ?_⟩
  simp only [get_commands_for_device]
  exact select_go_sublist (some p) now budget (sortStable queue) max_payload 0

/-- Witness for the amended C5 on the two-element queue [c5c, c5d]. -/
theorem c5_tie_extraction_order_witness :
    c5c.priority = c5d.priority ∧ c5c.deadline_ms = c5d.deadline_ms ∧
    ([c5c, c5d] : List PendingCommand).Sublist [c5c, c5d] ∧
    ([c5c, c5d] : List PendingCommand).Sublist (sortStable [c5c, c5d]) ∧
    (get_commands_for_device [c5c, c5d] 3 0 50 (some 0)).1.Sublist
      (sortStable [c5c, c5d]) :=
  ⟨by decide, by decide, by decide,
   (c5_tie_extraction_order [c5c, c5d] 3 0 50 0 c5c c5d (by decide) (by decide)
     (by decide)).1,
   (c5_tie_extraction_order [c5c, c5d] 3 0 50 0 c5c c5d (by decide) (by decide)
     (by decide)).2⟩

/-- Claim C6: after `enqueue`, the per-device queue holds at most queue_size
commands (length is min(previous+1, queue_size)); without overflow the queue
is exactly the previous contents plus the new command; on overflow the
retained entries form a sub-multiset of (previous + new) and every retained
entry sorts no later than every evicted one under the (priority, deadline)
comparator — the furthest-deadline, lowest-priority entries are evicted. -/
theorem c6_enqueue_capacity (qs : Nat) (queue : List PendingCommand) (cmd : PendingCommand) :
    (enqueue qs queue cmd).length =
      (if qs < queue.length + 1 then qs else queue.length + 1) ∧
    (queue.length + 1 ≤ qs → (enqueue qs queue cmd).Perm (cmd :: queue)) ∧
    (qs < queue.length + 1 →
      (∀ c, (enqueue qs queue cmd).count c ≤ (cmd :: queue).count c) ∧
      (∀ y, (enqueue qs queue cmd).count y < (cmd :: queue).count y →
        ∀ x ∈ enqueue qs queue cmd, cmd_le x y)) := by
  have hpush := heappush_perm cmd_lt queue cmd
  have hlen : (heappush cmd_lt queue cmd).length = queue.length + 1 := by
    rw [hpush.length_eq]; simp
  by_cases hq : qs < queue.length + 1
  · have hcond : qs < (heappush cmd_lt queue cmd).length := by omega
    have hE : enqueue qs queue cmd =
        heapify cmd_lt ((sortStable (heappush cmd_lt queue cmd)).take qs) := by
      rw [enqueue, if_pos hcond]
    have hsperm : (sortStable (heappush cmd_lt queue cmd)).Perm (cmd :: queue) :=
      (sortStable_perm _).trans hpush
    have hslen : (sortStable (heappush cmd_lt queue cmd)).length = queue.length + 1 := by
      rw [hsperm.length_eq]; simp
    have hheap := heapify_perm cmd_lt ((sortStable (heappush cmd_lt queue cmd)).take qs)
    refine ⟨?_, fun h => absurd h (by omega), fun _ => ⟨?_, ?_⟩⟩
    · rw [hE, hheap.length_eq, List.length_take, hslen, if_pos hq]
      exact Nat.min_eq_left (by omega)
    · intro c
      have h1 := (List.take_sublist qs (sortStable (heappush cmd_lt queue cmd))).count_le c
      rw [hE, hheap.count_eq c, ← hsperm.count_eq c]
      exact h1
    · intro y hy x hx
      rw [hE, hheap.count_eq y, ← hsperm.count_eq y] at hy
      rw [hE] at hx
      have hxt : x ∈ (sortStable (heappush cmd_lt queue cmd)).take qs := hheap.mem_iff.mp hx
      have hsplit : (sortStable (heappush cmd_lt queue cmd)).count y =
          ((sortStable (heappush cmd_lt queue cmd)).take qs).count y +
          ((sortStable (heappush cmd_lt queue cmd)).drop qs).count y := by
        conv_lhs => rw [← List.take_append_drop qs (sortStable (heappush cmd_lt queue cmd))]
        rw [List.count_append]
      have hyd : y ∈ (sortStable (heappush cmd_lt queue cmd)).drop qs := by
        refine List.count_pos_iff.mp ?_
        omega
      have hsorted : ((sortStable (heappush cmd_lt queue cmd)).take qs ++
          (sortStable (heappush cmd_lt queue cmd)).drop qs).Pairwise cmd_le := by
        rw [List.take_append_drop]
        exact sortStable_sorted _
      exact (List.pairwise_append.mp hsorted).2.2 x hxt y hyd
  · have hcond : ¬ qs < (heappush cmd_lt queue cmd).length := by omega
    have hE : enqueue qs queue cmd = heappush cmd_lt queue cmd := by
      rw [enqueue, if_neg hcond]
    exact ⟨by rw [hE, hlen, if_neg hq], fun _ => hE ▸ hpush, fun h => absurd h (by omega)⟩

/-- Commands for the C6 witness: a normal-priority resident and a critical
newcomer that evicts it from a capacity-1 queue. -/
def c6w1 : PendingCommand :=
  { cmd_id := 10, device_id := 2, protocol := 0, cmd_type := 1, payload := [],
    epoch_id := 1, priority := 1, deadline_ms := 500, created_ms := 0,
    probability_target := 1, retries := 0, max_retries := 3 }

def c6w2 : PendingCommand :=
  { cmd_id := 11, device_id := 2, protocol := 0, cmd_type := 1, payload := [],
    epoch_id := 2, priority := 0, deadline_ms := 400, created_ms := 0,
    probability_target := 1, retries := 0, max_retries := 3 }

/-- Witness for C6: enqueueing c6w2 into the full capacity-1 queue [c6w1]. -/
theorem c6_enqueue_capacity_witness :
    1 < ([c6w1] : List PendingCommand).length + 1 ∧
    ((∀ c, (enqueue 1 [c6w1] c6w2).count c ≤ (c6w2 :: [c6w1]).count c) ∧
     (∀ y, (enqueue 1 [c6w1] c6w2).count y < (c6w2 :: [c6w1]).count y →
       ∀ x ∈ enqueue 1 [c6w1] c6w2, cmd_le x y)) :=
  ⟨by decide, (c6_enqueue_capacity 1 [c6w1] c6w2).2.2 (by decide)⟩

/-- `AckTracker.add_pending(device, seq, ts)`: dict insert keyed by seq.  The
stored timestamp plays no role in any claim; the key set is modelled (a
re-received seq only refreshes its timestamp). -/
def add_pending (pending : List Nat) (seq : Nat) : List Nat :=
  if seq ∈ pending then pending else pending ++ [seq]

/-- Per-device gateway state touched by a NOVEL uplink: the ACK tracker's
pending map (keys), the scheduler queue, and the session's last uplink seq. -/
structure GwDeviceState where
  pending : List Nat
  queue : List PendingCommand
  last_seq : Nat
deriving DecidableEq, Repr

/-- `Gateway.receive_uplink` on a NOVEL uplink: `_handle_novel_uplink` updates
the session and registers the seq in the ACK tracker, then
`_schedule_downlink_opportunity` pulls up to 3 novel commands; only when at
least one command was selected does the gateway build and send a downlink
carrying the current ACK bitmap (`if commands:`).  Returns the new state and
the emitted downlink (commands, ack_base, ack_bitmap), `none` when nothing is
sent. -/
def receive_novel_uplink (W : Nat) (st : GwDeviceState) (seq now : Nat) :
    GwDeviceState × Option (List PendingCommand × Nat × Nat) :=
  ({ pending := add_pending st.pending seq,
     queue := (get_commands_for_device st.queue 3 now 50 (some 0)).2,
     last_seq := seq },
   if (get_commands_for_device st.queue 3 now 50 (some 0)).1 = [] then none
   else some ((get_commands_for_device st.queue 3 now 50 (some 0)).1,
              (generate_ack_bitmap W (add_pending st.pending seq)).1,
              (generate_ack_bitmap W (add_pending st.pending seq)).2))

/-- A run of received NOVEL uplinks (seq, now) against the gateway's
per-device state.  No other gateway code path touches the ACK tracker's
pending map: `mark_acked` exists but is never invoked, downlink transmission
and the expiry sweeper only touch the scheduler queue. -/
def gw_run (W : Nat) (st : GwDeviceState) : List (Nat × Nat) → GwDeviceState
  | [] => st
  | op :: rest => gw_run W (receive_novel_uplink W st op.1 op.2).1 rest

theorem mem_add_pending (pending : List Nat) (seq s : Nat) (h : s ∈ pending) :
    s ∈ add_pending pending seq := by
  rw [add_pending]
  split
  · exact h
  · exact List.mem_append_left _ h

theorem self_mem_add_pending (pending : List Nat) (seq : Nat) :
    seq ∈ add_pending pending seq := by
  rw [add_pending]
  split
  · assumption
  · exact List.mem_append_right _ (List.mem_singleton.mpr rfl)

/-- Claim C10: during a device's RX opportunity the NOVEL gateway emits a
downlink iff the scheduler returned at least one eligible command; the
emitted downlink carries exactly the selected commands and the ACK
base/bitmap generated from the tracker state that includes the just-received
uplink; with no selected command nothing is sent, so a bitmap is never
transmitted on its own. -/
theorem c10_downlink_only_with_commands (W : Nat) (st : GwDeviceState) (seq now : Nat) :
    ((receive_novel_uplink W st seq now).2 = none ↔
      (get_commands_for_device st.queue 3 now 50 (some 0)).1 = []) ∧
    (∀ dl, (receive_novel_uplink W st seq now).2 = some dl →
      dl.1 ≠ [] ∧
      dl.1 = (get_commands_for_device st.queue 3 now 50 (some 0)).1 ∧
      dl.2.1 = (generate_ack_bitmap W (add_pending st.pending seq)).1 ∧
      dl.2.2 = (generate_ack_bitmap W (add_pending st.pending seq)).2) := by
  rw [receive_novel_uplink]
  simp only
  split
  · rename_i hsel
    exact ⟨by simp [hsel], by simp⟩
  · rename_i hsel
    refine ⟨by simp [hsel], ?_⟩
    intro dl hdl
    obtain rfl : _ = dl := Option.some.inj hdl
    exact ⟨hsel, rfl, rfl, rfl⟩

/-- Command used by the C10 witness and the C8 counterexample. -/
def c8cmd : PendingCommand :=
  { cmd_id := 20, device_id := 3, protocol := 0, cmd_type := 4, payload := [1, 2],
    epoch_id := 1, priority := 1, deadline_ms := 100000, created_ms := 0,
    probability_target := 1, retries := 0, max_retries := 2 }

/-- Witness for C10: with one eligible queued command, the uplink (seq 1)
triggers a downlink carrying that command and the fresh bitmap. -/
theorem c10_downlink_only_with_commands_witness :
    (receive_novel_uplink 16 ⟨[], [c8cmd], 0⟩ 1 0).2 =
      some ([c8cmd], (generate_ack_bitmap 16 (add_pending [] 1)).1,
            (generate_ack_bitmap 16 (add_pending [] 1)).2) ∧
    (([c8cmd], (generate_ack_bitmap 16 (add_pending [] 1)).1,
      (generate_ack_bitmap 16 (add_pending [] 1)).2) :
        List PendingCommand × Nat × Nat).1 ≠ [] :=
  ⟨by decide,
   ((c10_downlink_only_with_commands 16 ⟨[], [c8cmd], 0⟩ 1 0).2
     ([c8cmd], (generate_ack_bitmap 16 (add_pending [] 1)).1,
      (generate_ack_bitmap 16 (add_pending [] 1)).2) (by decide)).1⟩

/-- Claim C8 fails on the code: nothing ever removes an entry from the
gateway-side ACK window.  Starting with one queued command, uplink seq 1
triggers a delivered downlink whose bitmap covers seq 1, yet after the later
uplinks seq 2 and seq 3 the pending map still holds all of 1, 2, 3 — no
implicit confirmation, no timeout, unbounded growth. -/
theorem c8_counterexample :
    (receive_novel_uplink 16 ⟨[], [c8cmd], 0⟩ 1 0).2.isSome = true ∧
    (gw_run 16 ⟨[], [c8cmd], 0⟩ [(1, 0), (2, 10), (3, 20)]).pending = [1, 2, 3] := by
  decide

/-- Amended C8: the ACK window gains an entry on each received NOVEL uplink
and never loses one — over any run of uplinks the pending map only grows
(`mark_acked` is dead code). -/
theorem c8_ack_window_monotone (W : Nat) (st : GwDeviceState) (seq now : Nat)
    (ops : List (Nat × Nat)) :
    seq ∈ (receive_novel_uplink W st seq now).1.pending ∧
    (∀ s, s ∈ st.pending → s ∈ (receive_novel_uplink W st seq now).1.pending) ∧
    (∀ s, s ∈ st.pending → s ∈ (gw_run W st ops).pending) := by
  refine ⟨self_mem_add_pending st.pending seq, fun s hs => mem_add_pending _ _ _ hs, ?_⟩
  induction ops generalizing st with
  | nil => intro s hs; exact hs
  | cons op rest ih =>
      intro s hs
      rw [gw_run]
      exact ih (receive_novel_uplink W st op.1 op.2).1 s (mem_add_pending _ _ _ hs)

/-- Witness for the amended C8 starting from pending = [7]. -/
theorem c8_ack_window_monotone_witness :
    1 ∈ (receive_novel_uplink 16 ⟨[7], [], 0⟩ 1 0).1.pending ∧
    7 ∈ ([7] : List Nat) ∧
    7 ∈ (receive_novel_uplink 16 ⟨[7], [], 0⟩ 1 0).1.pending ∧
    7 ∈ (gw_run 16 ⟨[7], [], 0⟩ [(1, 0), (2, 5)]).pending :=
  ⟨(c8_ack_window_monotone 16 ⟨[7], [], 0⟩ 1 0 []).1, by decide,
   (c8_ack_window_monotone 16 ⟨[7], [], 0⟩ 1 0 []).2.1 7 (by decide),
   (c8_ack_window_monotone 16 ⟨[7], [], 0⟩ 1 0 [(1, 0), (2, 5)]).2.2 7 (by decide)⟩

/-- Device power/energy accumulator state: `energy_consumed_mj`,
`last_state_change_ms`, `current_power_mw`. -/
structure PowerState where
  energy : ℚ
  last : ℚ
  power : ℚ
deriving DecidableEq, Repr

/-- `EndDevice._change_power_state`: accumulate
`current_power_mw * (now - last_state_change_ms) / 1000` into
`energy_consumed_mj`, stamp the change time and switch to the new power
level. -/
def change_power (st : PowerState) (now p : ℚ) : PowerState :=
  { energy := st.energy + st.power * (now - st.last) / 1000, last := now, power := p }

/-- One wake-up of a device with no pending uplinks and no received commands
(`EndDevice.run` loop body): switch to idle at wake time t and, with nothing
to do and no intervening yield, immediately back to sleep at the same t. -/
def idle_wake (P_sleep P_idle : ℚ) (st : PowerState) (t : ℚ) : PowerState :=
  change_power (change_power st t P_idle) t P_sleep

/-- The run of a never-transmitting device: boot state (0 energy, t = 0,
sleeping) folded through its wake-up times; the simulation driver performs no
final state change when the run's duration elapses. -/
def device_idle_run (P_sleep P_idle : ℚ) (ts : List ℚ) : PowerState :=
  ts.foldl (idle_wake P_sleep P_idle) ⟨0, 0, P_sleep⟩

theorem idle_run_aux (P_sleep P_idle : ℚ) (ts : List ℚ) :
    ∀ st : PowerState, st.power = P_sleep →
      (ts.foldl (idle_wake P_sleep P_idle) st).energy
          = st.energy + P_sleep * (ts.getLastD st.last - st.last) / 1000 ∧
      (ts.foldl (idle_wake P_sleep P_idle) st).last = ts.getLastD st.last ∧
      (ts.foldl (idle_wake P_sleep P_idle) st).power = P_sleep := by
  induction ts with
  | nil =>
      intro st hp
      refine ⟨?_, rfl, hp⟩
      simp [List.getLastD]
  | cons t ts ih =>
      intro st hp
      simp only [List.foldl_cons, List.getLastD_cons]
      have hst : (idle_wake P_sleep P_idle st t).power = P_sleep := rfl
      obtain ⟨he, hl, hpw⟩ := ih (idle_wake P_sleep P_idle st t) hst
      refine ⟨?_, ?_, hpw⟩
      · rw [he]
        have hwe : (idle_wake P_sleep P_idle st t).energy
            = st.energy + st.power * (t - st.last) / 1000 + P_idle * (t - t) / 1000 := rfl
        have hwl : (idle_wake P_sleep P_idle st t).last = t := rfl
        rw [hwe, hwl, hp]
        ring
      · rw [hl]
        have hwl : (idle_wake P_sleep P_idle st t).last = t := rfl
        rw [hwl]

/-- Amended C9: for a device that never transmits, the accumulated
`energy_consumed_mj` after the run is P_sleep times the time of its *last
wake-up* divided by 1000 — the trailing interval from the last state change
to the run's end is never integrated, so the total equals
duration_ms·P_sleep/1000 only when a wake-up falls exactly at the end. -/
theorem c9_idle_energy (P_sleep P_idle : ℚ) (ts : List ℚ) :
    (device_idle_run P_sleep P_idle ts).energy = P_sleep * ts.getLastD 0 / 1000 ∧
    (device_idle_run P_sleep P_idle ts).power = P_sleep := by
  obtain ⟨he, _, hpw⟩ := idle_run_aux P_sleep P_idle ts ⟨0, 0, P_sleep⟩ rfl
  rw [device_idle_run]
  refine ⟨?_, hpw⟩
  rw [he]
  simp

/-- Claim C9 fails on the code: with default sleep power 0.001 mW, a device
whose single wake-up falls at t = 600000 ms in a 900000 ms run has
accumulated 0.6 mJ, not the 0.9 mJ = duration_ms · P_sleep / 1000 the claim
demands — the integrator only runs at state changes and never at the end of
the run. -/
theorem c9_counterexample :
    (device_idle_run (1/1000) 1 [600000]).energy = 3/5 ∧
    (900000 : ℚ) * (1/1000) / 1000 = 9/10 ∧
    decide ((3/5 : ℚ) = 9/10) = false := by
  refine ⟨?_, by norm_num, by norm_num⟩
  norm_num [device_idle_run, idle_wake, change_power]
